import Mathlib

/-!
Shallow embedding of the gh-report aggregation engine.

Timestamps (`time.Time` values in the Go source) are modelled as integers
counting seconds since the Go absolute epoch (January 1, year 1, 00:00:00 UTC,
which is also Go's zero `time.Time`).  Go pointers that may be nil (`*User` on
items and comments) are modelled as `Option User`; an unconditional nil
dereference in the Go source is modelled by returning `none` from the embedded
function (a run-time panic).  Go maps keyed by strings are modelled as
association lists whose update operation overwrites the first binding of the
key, exactly like a Go map assignment.
-/

/-- Model of the Go `time.After`: `t.After(u)` is `t > u`. -/
def timeAfter (t u : Int) : Bool := decide (u < t)

/-- Model of the Go `time.Before`: `t.Before(u)` is `t < u`. -/
def timeBefore (t u : Int) : Bool := decide (t < u)

/-- `Period` from period.go: a time period with a start and an end. -/
structure Period where
  Start : Int
  End : Int
deriving DecidableEq, Repr

/-- `Period.Match` from period.go: `t.After(p.Start) && t.Before(p.End)`. -/
def Period.Match (p : Period) (t : Int) : Bool :=
  timeAfter t p.Start && timeBefore t p.End

/-- `User` from gh.go: login handle and profile URL. -/
structure User where
  ID : String
  URL : String
deriving DecidableEq, Repr

/-- Raw `github.User` record as consumed by `NewUser` (the two dereferenced
fields only). -/
structure GithubUser where
  Login : String
  HTMLURL : String
deriving DecidableEq, Repr

/-- `NewUser` from gh.go: `&User{ID: *u.Login, URL: *u.HTMLURL}`. -/
def NewUser (u : GithubUser) : User :=
  { ID := u.Login, URL := u.HTMLURL }

/-- `Users` from gh.go: a map from login to `*User`, modelled as an
association list. -/
def Users := List (String × User)

instance : DecidableEq Users := by
  unfold Users; infer_instance

instance : Repr Users := by
  unfold Users; infer_instance

/-- Lookup in a `Users` map (Go `users[k]` read with its `ok` flag). -/
def Users.lookup : Users → String → Option User
  | [], _ => none
  | (k, u) :: rest, key => if k = key then some u else Users.lookup rest key

/-- Go map assignment `users[k] = v`: overwrite the binding of `k` if present,
otherwise add one. -/
def Users.store : Users → String → User → Users
  | [], k, v => [(k, v)]
  | (k', u) :: rest, k, v =>
      if k' = k then (k, v) :: rest else (k', u) :: Users.store rest k v

/-- Keys of a `Users` map. -/
def Users.keys (m : Users) : List String := m.map Prod.fst

/-- `Users.Add` from gh.go: return the existing `User` for this login if
present, otherwise construct one with `NewUser`, store it and return it.
The Go method mutates the receiver map; the embedding returns the
(result, updated map) pair. -/
def Users.Add (users : Users) (u : GithubUser) : User × Users :=
  match Users.lookup users u.Login with
  | some user => (user, users)
  | none =>
      let user := NewUser u
      (user, Users.store users user.ID user)

/-- `Comment` from gh.go: creation time and (possibly nil) author. -/
structure Comment where
  CreatedAt : Int
  User : Option User
deriving DecidableEq, Repr

/-- `Item` from gh.go: a normalized issue or PR. -/
structure Item where
  PR : Bool
  ID : String
  Repo : String
  Number : Int
  State : String
  Title : String
  URL : String
  CreatedBy : Option User
  CreatedAt : Int
  UpdatedAt : Int
  ClosedAt : Int
  Comments : List Comment
  Merged : Bool
  MergedAt : Int
  MergedBy : Option User
deriving DecidableEq, Repr

/-- Claim C7: for every Period `p` and timestamp `t`, the membership test
`Match` returns true iff `Start < t < End` strictly; a timestamp exactly equal
to `Start` or to `End` is excluded. -/
theorem period_Match_iff_strictly_between (p : Period) (t : Int) :
    (Period.Match p t = true ↔ p.Start < t ∧ t < p.End) ∧
    Period.Match p p.Start = false ∧ Period.Match p p.End = false := by
  refine ⟨?_, ?_, ?_⟩ <;>
    simp [Period.Match, timeAfter, timeBefore]

/-- Reading back after a Go map assignment. -/
theorem Users.lookup_store (m : Users) (k : String) (v : User) (k' : String) :
    Users.lookup (Users.store m k v) k' = if k = k' then some v else Users.lookup m k' := by
  induction m with
  | nil => by_cases h : k = k' <;> simp [Users.store, Users.lookup, h]
  | cons p rest ih =>
      obtain ⟨k0, u0⟩ := p
      by_cases h0 : k0 = k
      · by_cases h1 : k = k' <;> simp [Users.store, Users.lookup, h0, h1]
      · by_cases h1 : k0 = k'
        · subst h1
          have : ¬ k = k0 := fun h => h0 h.symm
          simp [Users.store, Users.lookup, h0, this]
        · simp [Users.store, Users.lookup, h0, h1, ih]

/-- A key is in the key list iff lookup succeeds. -/
theorem Users.mem_keys_iff (m : Users) (k : String) :
    k ∈ Users.keys m ↔ (Users.lookup m k).isSome = true := by
  induction m with
  | nil => simp [Users.keys, Users.lookup]
  | cons p rest ih =>
      obtain ⟨k0, u0⟩ := p
      have hkeys : Users.keys ((k0, u0) :: rest) = k0 :: Users.keys rest := rfl
      rw [hkeys]
      by_cases h : k0 = k
      · subst h; simp [Users.lookup]
      · have h' : ¬ k = k0 := fun hh => h hh.symm
        simp [Users.lookup, h, h', List.mem_cons, ih]

/-- Map assignment preserves duplicate-freedom of the key list. -/
theorem Users.keys_store_nodup (m : Users) (k : String) (v : User)
    (h : (Users.keys m).Nodup) : (Users.keys (Users.store m k v)).Nodup := by
  induction m with
  | nil => simp [Users.store, Users.keys]
  | cons p rest ih =>
      obtain ⟨k0, u0⟩ := p
      have hkeys : Users.keys ((k0, u0) :: rest) = k0 :: Users.keys rest := rfl
      rw [hkeys, List.nodup_cons] at h
      by_cases h0 : k0 = k
      · have hst : Users.store ((k0, u0) :: rest) k v = (k, v) :: rest := by
          simp [Users.store, h0]
        rw [hst]
        have hkeys2 : Users.keys ((k, v) :: rest) = k :: Users.keys rest := rfl
        rw [hkeys2, List.nodup_cons]
        exact ⟨h0 ▸ h.1, h.2⟩
      · have hst : Users.store ((k0, u0) :: rest) k v
            = (k0, u0) :: Users.store rest k v := by
          simp [Users.store, h0]
        rw [hst]
        have hkeys2 : Users.keys ((k0, u0) :: Users.store rest k v)
            = k0 :: Users.keys (Users.store rest k v) := rfl
        rw [hkeys2, List.nodup_cons]
        refine ⟨?_, ih h.2⟩
        intro hmem
        rw [Users.mem_keys_iff, Users.lookup_store] at hmem
        by_cases hkk : k = k0
        · exact h0 hkk.symm
        · rw [if_neg hkk, ← Users.mem_keys_iff] at hmem
          exact h.1 hmem

/-- The number of bindings (what Go's `len` reports for the map). -/
def Users.size (m : Users) : Nat := m.length

theorem Users.keys_length (m : Users) : (Users.keys m).length = Users.size m := by
  simp [Users.keys, Users.size]

/-- Accumulator state of the repository-mode classification pass in
`repoReport`: the three buckets, the counters, and the contributor / global
user maps. -/
structure RepoState where
  mergedPRs : List Item
  closedIssues : List Item
  updatedItems : List Item
  openedPRsCount : Nat
  openedIssuesCount : Nat
  contributions : Nat
  contributors : Users
  users : Users
deriving DecidableEq, Repr

/-- Initial accumulator of `repoReport` (empty buckets, zero counters,
empty maps). -/
def RepoState.init : RepoState :=
  { mergedPRs := [], closedIssues := [], updatedItems := [],
    openedPRsCount := 0, openedIssuesCount := 0, contributions := 0,
    contributors := [], users := [] }

/-- Body of the comment loop in `repoReport`: if the comment is in the period,
bump the contribution counter, add the comment author to the contributor set
and set the `updated` flag; always record the comment author in the global
user map.  Both branches dereference `comment.User`, so a nil author is a
panic (`none`). -/
def commentStep (p : Period) (st : RepoState × Bool) (c : Comment) :
    Option (RepoState × Bool) :=
  match c.User with
  | none => none
  | some u =>
      let s := st.1
      let updated := st.2
      let (s, updated) :=
        if Period.Match p c.CreatedAt then
          ({ s with contributions := s.contributions + 1,
                    contributors := Users.store s.contributors u.ID u }, true)
        else (s, updated)
      some ({ s with users := Users.store s.users u.ID u }, updated)

/-- The comment loop of `repoReport`, over the item's comment list. -/
def commentsLoop (p : Period) : List Comment → RepoState × Bool →
    Option (RepoState × Bool)
  | [], st => some st
  | c :: rest, st =>
      match commentStep p st c with
      | none => none
      | some st' => commentsLoop p rest st'

/-- The "new item" step of the `repoReport` loop body: if the item was
created in-period, set the `updated` flag, bump the contribution counter,
add the creator to the contributor set and bump the opened-PR or
opened-issue counter depending on `i.PR`. -/
def createStep (p : Period) (creator : User) (i : Item)
    (st : RepoState × Bool) : RepoState × Bool :=
  if Period.Match p i.CreatedAt then
    ({ st.1 with
        contributions := st.1.contributions + 1,
        contributors := Users.store st.1.contributors creator.ID creator,
        openedPRsCount :=
          if i.PR then st.1.openedPRsCount + 1 else st.1.openedPRsCount,
        openedIssuesCount :=
          if i.PR then st.1.openedIssuesCount else st.1.openedIssuesCount + 1 },
      true)
  else st

/-- The "closed PRs and issues" step of the `repoReport` loop body: a PR
closed in-period goes to the merged bucket (registering `MergedBy` when it is
non-nil) or, if not merged, to the updated bucket; an issue closed in-period
goes to the closed-issues bucket; anything not closed in-period goes to the
updated bucket exactly when the `updated` flag was set. -/
def closeStep (p : Period) (i : Item) (st : RepoState × Bool) : RepoState :=
  if Period.Match p i.ClosedAt then
    if i.PR then
      if i.Merged then
        let s := { st.1 with mergedPRs := st.1.mergedPRs ++ [i] }
        match i.MergedBy with
        | some mb =>
            { s with users := Users.store s.users mb.ID mb,
                     contributors := Users.store s.contributors mb.ID mb }
        | none => s
      else { st.1 with updatedItems := st.1.updatedItems ++ [i] }
    else { st.1 with closedIssues := st.1.closedIssues ++ [i] }
  else
    if st.2 then { st.1 with updatedItems := st.1.updatedItems ++ [i] }
    else st.1

/-- One iteration of the classification loop of `repoReport` (the body of
`for _, i := range append(allPRs, allIssues...)`): record the creator in the
global user map, run the comment loop, then the creation and closing steps.
The unconditional `users[i.CreatedBy.ID]` write panics (`none`) when
`CreatedBy` is nil. -/
def processItem (p : Period) (s : RepoState) (i : Item) : Option RepoState :=
  match i.CreatedBy with
  | none => none
  | some creator =>
      match commentsLoop p i.Comments
          ({ s with users := Users.store s.users creator.ID creator }, false) with
      | none => none
      | some st => some (closeStep p i (createStep p creator i st))

/-- The classification loop of `repoReport` over a list of items. -/
def repoLoop (p : Period) : List Item → RepoState → Option RepoState
  | [], s => some s
  | i :: rest, s =>
      match processItem p s i with
      | none => none
      | some s' => repoLoop p rest s'

/-- `repoReport` from the source, restricted to its classification pass:
one fold over `append(allPRs, allIssues...)` starting from the empty
accumulator (the printing phase is pure rendering and is not modelled). -/
def repoReport (p : Period) (allPRs allIssues : List Item) : Option RepoState :=
  repoLoop p (allPRs ++ allIssues) RepoState.init

/-- The final value of the `updated` flag for one item: set by an in-period
comment or by an in-period creation. -/
def touched (p : Period) (i : Item) : Bool :=
  Period.Match p i.CreatedAt || i.Comments.any (fun c => Period.Match p c.CreatedAt)

/-- Condition under which `repoReport` routes an item to the merged-PRs
bucket. -/
def mergedCond (p : Period) (i : Item) : Bool :=
  Period.Match p i.ClosedAt && i.PR && i.Merged

/-- Condition under which `repoReport` routes an item to the closed-issues
bucket. -/
def closedCond (p : Period) (i : Item) : Bool :=
  Period.Match p i.ClosedAt && !i.PR

/-- Condition under which `repoReport` routes an item to the updated bucket:
closed in-period but not merged (PRs), or not closed in-period but touched. -/
def updCond (p : Period) (i : Item) : Bool :=
  (Period.Match p i.ClosedAt && i.PR && !i.Merged)
    || (!Period.Match p i.ClosedAt && touched p i)

/-- Number of contribution-counter increments one item generates: one per
in-period comment plus one if the item itself was created in-period. -/
def itemContrib (p : Period) (i : Item) : Nat :=
  i.Comments.countP (fun c => Period.Match p c.CreatedAt)
    + (if Period.Match p i.CreatedAt then 1 else 0)

/-- Total contribution count over a list of items. -/
def sumContrib (p : Period) (items : List Item) : Nat :=
  (items.map (itemContrib p)).sum

/-- The state produced by one successful comment-loop iteration. -/
def commentEffect (p : Period) (s : RepoState) (b : Bool) (c : Comment)
    (u : User) : RepoState × Bool :=
  ({ s with
      contributions :=
        s.contributions + (if Period.Match p c.CreatedAt then 1 else 0),
      contributors :=
        if Period.Match p c.CreatedAt then Users.store s.contributors u.ID u
        else s.contributors,
      users := Users.store s.users u.ID u },
   b || Period.Match p c.CreatedAt)

theorem commentStep_eq (p : Period) (s : RepoState) (b : Bool) (c : Comment)
    (u : User) (hu : c.User = some u) :
    commentStep p (s, b) c = some (commentEffect p s b c u) := by
  by_cases h : Period.Match p c.CreatedAt = true
  · simp [commentStep, hu, h, commentEffect]
  · rw [Bool.not_eq_true] at h
    simp [commentStep, hu, h, commentEffect]

theorem commentStep_none (p : Period) (s : RepoState) (b : Bool) (c : Comment)
    (hu : c.User = none) : commentStep p (s, b) c = none := by
  simp [commentStep, hu]

theorem commentsLoop_isSome (p : Period) (cs : List Comment) :
    ∀ s b, (∀ c ∈ cs, c.User.isSome = true) →
      (commentsLoop p cs (s, b)).isSome = true := by
  induction cs with
  | nil => intro s b _; simp [commentsLoop]
  | cons c rest ih =>
      intro s b hall
      have hc : c.User.isSome = true := hall c (List.mem_cons_self c rest)
      obtain ⟨u, hu⟩ := Option.isSome_iff_exists.mp hc
      rw [commentsLoop, commentStep_eq p s b c u hu]
      exact ih _ _ (fun c' hc' => hall c' (List.mem_cons_of_mem c hc'))

theorem commentsLoop_frame (p : Period) (cs : List Comment) :
    ∀ s b s' b', commentsLoop p cs (s, b) = some (s', b') →
      s'.mergedPRs = s.mergedPRs ∧ s'.closedIssues = s.closedIssues ∧
      s'.updatedItems = s.updatedItems ∧
      s'.openedPRsCount = s.openedPRsCount ∧
      s'.openedIssuesCount = s.openedIssuesCount := by
  induction cs with
  | nil =>
      intro s b s' b' h
      simp [commentsLoop] at h
      obtain ⟨h1, _⟩ := h
      rw [← h1]
      exact ⟨rfl, rfl, rfl, rfl, rfl⟩
  | cons c rest ih =>
      intro s b s' b' h
      cases hu : c.User with
      | none => rw [commentsLoop, commentStep_none p s b c hu] at h; exact absurd h (by simp)
      | some u =>
          rw [commentsLoop, commentStep_eq p s b c u hu] at h
          have := ih _ _ _ _ h
          simpa [commentEffect] using this

theorem commentsLoop_contrib (p : Period) (cs : List Comment) :
    ∀ s b s' b', commentsLoop p cs (s, b) = some (s', b') →
      s'.contributions =
        s.contributions + cs.countP (fun c => Period.Match p c.CreatedAt) := by
  induction cs with
  | nil =>
      intro s b s' b' h
      simp [commentsLoop] at h
      obtain ⟨h1, _⟩ := h
      rw [← h1]
      simp
  | cons c rest ih =>
      intro s b s' b' h
      cases hu : c.User with
      | none => rw [commentsLoop, commentStep_none p s b c hu] at h; exact absurd h (by simp)
      | some u =>
          rw [commentsLoop, commentStep_eq p s b c u hu] at h
          have := ih _ _ _ _ h
          rw [this]
          by_cases hm : Period.Match p c.CreatedAt = true
          · simp [commentEffect, hm, List.countP_cons]
            omega
          · rw [Bool.not_eq_true] at hm
            simp [commentEffect, hm, List.countP_cons]

theorem commentsLoop_flag (p : Period) (cs : List Comment) :
    ∀ s b s' b', commentsLoop p cs (s, b) = some (s', b') →
      b' = (b || cs.any (fun c => Period.Match p c.CreatedAt)) := by
  induction cs with
  | nil =>
      intro s b s' b' h
      simp [commentsLoop] at h
      obtain ⟨_, h2⟩ := h
      simp [← h2]
  | cons c rest ih =>
      intro s b s' b' h
      cases hu : c.User with
      | none => rw [commentsLoop, commentStep_none p s b c hu] at h; exact absurd h (by simp)
      | some u =>
          rw [commentsLoop, commentStep_eq p s b c u hu] at h
          have := ih _ _ _ _ h
          rw [this]
          simp [commentEffect, List.any_cons, Bool.or_assoc]

theorem Users.lookup_store_self (m : Users) (k : String) (v : User) :
    Users.lookup (Users.store m k v) k = some v := by
  rw [Users.lookup_store]; simp

theorem Users.lookup_store_isSome_mono (m : Users) (k0 : String) (v : User)
    (k : String) (h : (Users.lookup m k).isSome = true) :
    (Users.lookup (Users.store m k0 v) k).isSome = true := by
  rw [Users.lookup_store]
  by_cases hk : k0 = k <;> simp [hk, h]

/-- Well-formedness tying the contributor map to the global user map: every
contributor login is also a registered user login, and both key lists are
duplicate-free. -/
def MapsInv (s : RepoState) : Prop :=
  (∀ k, (Users.lookup s.contributors k).isSome = true →
      (Users.lookup s.users k).isSome = true)
  ∧ (Users.keys s.users).Nodup ∧ (Users.keys s.contributors).Nodup

theorem commentEffect_inv (p : Period) (s : RepoState) (b : Bool) (c : Comment)
    (u : User) (h : MapsInv s) : MapsInv (commentEffect p s b c u).1 := by
  obtain ⟨hsub, hnu, hnc⟩ := h
  by_cases hm : Period.Match p c.CreatedAt = true
  · refine ⟨?_, ?_, ?_⟩
    · intro k hk
      simp only [commentEffect, hm, if_pos] at hk ⊢
      rw [Users.lookup_store] at hk
      by_cases hku : u.ID = k
      · subst hku; rw [Users.lookup_store_self]; rfl
      · rw [if_neg hku] at hk
        exact Users.lookup_store_isSome_mono _ _ _ _ (hsub k hk)
    · simpa [commentEffect, hm] using Users.keys_store_nodup _ _ _ hnu
    · simpa [commentEffect, hm] using Users.keys_store_nodup _ _ _ hnc
  · rw [Bool.not_eq_true] at hm
    refine ⟨?_, ?_, ?_⟩
    · intro k hk
      simp only [commentEffect, hm] at hk ⊢
      simp only [Bool.false_eq_true, if_false] at hk
      exact Users.lookup_store_isSome_mono _ _ _ _ (hsub k hk)
    · simpa [commentEffect, hm] using Users.keys_store_nodup _ _ _ hnu
    · simpa [commentEffect, hm] using hnc

theorem commentEffect_users_mono (p : Period) (s : RepoState) (b : Bool)
    (c : Comment) (u : User) (k : String)
    (h : (Users.lookup s.users k).isSome = true) :
    (Users.lookup (commentEffect p s b c u).1.users k).isSome = true := by
  simp only [commentEffect]
  exact Users.lookup_store_isSome_mono _ _ _ _ h

theorem commentEffect_contributors_mono (p : Period) (s : RepoState) (b : Bool)
    (c : Comment) (u : User) (k : String)
    (h : (Users.lookup s.contributors k).isSome = true) :
    (Users.lookup (commentEffect p s b c u).1.contributors k).isSome = true := by
  simp only [commentEffect]
  by_cases hm : Period.Match p c.CreatedAt = true
  · simp only [hm, if_pos]
    exact Users.lookup_store_isSome_mono _ _ _ _ h
  · rw [Bool.not_eq_true] at hm
    simpa [hm] using h

theorem commentsLoop_users_mono (p : Period) (cs : List Comment) :
    ∀ s b s' b', commentsLoop p cs (s, b) = some (s', b') →
      ∀ k, (Users.lookup s.users k).isSome = true →
        (Users.lookup s'.users k).isSome = true := by
  induction cs with
  | nil =>
      intro s b s' b' h k hk
      simp [commentsLoop] at h
      rw [← h.1]; exact hk
  | cons c rest ih =>
      intro s b s' b' h k hk
      cases hu : c.User with
      | none => rw [commentsLoop, commentStep_none p s b c hu] at h; exact absurd h (by simp)
      | some u =>
          rw [commentsLoop, commentStep_eq p s b c u hu] at h
          exact ih _ _ _ _ h k (commentEffect_users_mono p s b c u k hk)

theorem commentsLoop_contributors_mono (p : Period) (cs : List Comment) :
    ∀ s b s' b', commentsLoop p cs (s, b) = some (s', b') →
      ∀ k, (Users.lookup s.contributors k).isSome = true →
        (Users.lookup s'.contributors k).isSome = true := by
  induction cs with
  | nil =>
      intro s b s' b' h k hk
      simp [commentsLoop] at h
      rw [← h.1]; exact hk
  | cons c rest ih =>
      intro s b s' b' h k hk
      cases hu : c.User with
      | none => rw [commentsLoop, commentStep_none p s b c hu] at h; exact absurd h (by simp)
      | some u =>
          rw [commentsLoop, commentStep_eq p s b c u hu] at h
          exact ih _ _ _ _ h k (commentEffect_contributors_mono p s b c u k hk)

theorem commentsLoop_inv (p : Period) (cs : List Comment) :
    ∀ s b s' b', commentsLoop p cs (s, b) = some (s', b') →
      MapsInv s → MapsInv s' := by
  induction cs with
  | nil =>
      intro s b s' b' h hinv
      simp [commentsLoop] at h
      rw [← h.1]; exact hinv
  | cons c rest ih =>
      intro s b s' b' h hinv
      cases hu : c.User with
      | none => rw [commentsLoop, commentStep_none p s b c hu] at h; exact absurd h (by simp)
      | some u =>
          rw [commentsLoop, commentStep_eq p s b c u hu] at h
          exact ih _ _ _ _ h (commentEffect_inv p s b c u hinv)

theorem commentsLoop_mem (p : Period) (cs : List Comment) :
    ∀ s b s' b', commentsLoop p cs (s, b) = some (s', b') →
      ∀ c ∈ cs, ∀ u, c.User = some u →
        (Users.lookup s'.users u.ID).isSome = true ∧
        (Period.Match p c.CreatedAt = true →
          (Users.lookup s'.contributors u.ID).isSome = true) := by
  induction cs with
  | nil => intro s b s' b' h c hc; exact absurd hc (List.not_mem_nil c)
  | cons c0 rest ih =>
      intro s b s' b' h c hc u hu
      cases hu0 : c0.User with
      | none => rw [commentsLoop, commentStep_none p s b c0 hu0] at h; exact absurd h (by simp)
      | some u0 =>
          rw [commentsLoop, commentStep_eq p s b c0 u0 hu0] at h
          rcases List.mem_cons.mp hc with hceq | hcrest
          · subst hceq
            have hu' : u0 = u := by rw [hu0] at hu; injection hu
            subst hu'
            constructor
            · apply commentsLoop_users_mono p rest _ _ _ _ h
              simp only [commentEffect]
              rw [Users.lookup_store_self]; rfl
            · intro hm
              apply commentsLoop_contributors_mono p rest _ _ _ _ h
              simp only [commentEffect, hm, if_pos]
              rw [Users.lookup_store_self]; rfl
          · exact ih _ _ _ _ h c hcrest u hu

theorem createStep_state (p : Period) (creator : User) (i : Item)
    (s : RepoState) (b : Bool) :
    (createStep p creator i (s, b)).1.mergedPRs = s.mergedPRs ∧
    (createStep p creator i (s, b)).1.closedIssues = s.closedIssues ∧
    (createStep p creator i (s, b)).1.updatedItems = s.updatedItems ∧
    (createStep p creator i (s, b)).1.users = s.users ∧
    (createStep p creator i (s, b)).1.contributions
      = s.contributions + (if Period.Match p i.CreatedAt then 1 else 0) ∧
    (createStep p creator i (s, b)).2 = (Period.Match p i.CreatedAt || b) := by
  by_cases hm : Period.Match p i.CreatedAt = true
  · simp [createStep, hm]
  · rw [Bool.not_eq_true] at hm
    simp [createStep, hm]

theorem createStep_contributors_mono (p : Period) (creator : User) (i : Item)
    (s : RepoState) (b : Bool) (k : String)
    (h : (Users.lookup s.contributors k).isSome = true) :
    (Users.lookup (createStep p creator i (s, b)).1.contributors k).isSome = true := by
  by_cases hm : Period.Match p i.CreatedAt = true
  · simp only [createStep, hm, if_pos]
    exact Users.lookup_store_isSome_mono _ _ _ _ h
  · rw [Bool.not_eq_true] at hm
    simpa [createStep, hm] using h

theorem createStep_creator_mem (p : Period) (creator : User) (i : Item)
    (s : RepoState) (b : Bool) (hm : Period.Match p i.CreatedAt = true) :
    (Users.lookup (createStep p creator i (s, b)).1.contributors creator.ID).isSome = true := by
  simp only [createStep, hm, if_pos]
  rw [Users.lookup_store_self]; rfl

theorem createStep_inv (p : Period) (creator : User) (i : Item)
    (s : RepoState) (b : Bool) (hinv : MapsInv s)
    (hcr : (Users.lookup s.users creator.ID).isSome = true) :
    MapsInv (createStep p creator i (s, b)).1 := by
  obtain ⟨hsub, hnu, hnc⟩ := hinv
  by_cases hm : Period.Match p i.CreatedAt = true
  · refine ⟨?_, ?_, ?_⟩
    · intro k hk
      simp only [createStep, hm, if_pos] at hk ⊢
      rw [Users.lookup_store] at hk
      by_cases hkc : creator.ID = k
      · subst hkc; exact hcr
      · rw [if_neg hkc] at hk
        exact hsub k hk
    · simpa [createStep, hm] using hnu
    · simpa [createStep, hm] using Users.keys_store_nodup _ _ _ hnc
  · rw [Bool.not_eq_true] at hm
    exact ⟨by simpa [createStep, hm] using hsub,
           by simpa [createStep, hm] using hnu,
           by simpa [createStep, hm] using hnc⟩

theorem closeStep_state (p : Period) (i : Item) (st : RepoState × Bool) :
    (closeStep p i st).mergedPRs
      = st.1.mergedPRs ++ (if Period.Match p i.ClosedAt && i.PR && i.Merged then [i] else []) ∧
    (closeStep p i st).closedIssues
      = st.1.closedIssues ++ (if Period.Match p i.ClosedAt && !i.PR then [i] else []) ∧
    (closeStep p i st).updatedItems
      = st.1.updatedItems ++
          (if (Period.Match p i.ClosedAt && i.PR && !i.Merged)
              || (!Period.Match p i.ClosedAt && st.2) then [i] else []) ∧
    (closeStep p i st).contributions = st.1.contributions ∧
    (closeStep p i st).openedPRsCount = st.1.openedPRsCount ∧
    (closeStep p i st).openedIssuesCount = st.1.openedIssuesCount := by
  obtain ⟨s, b⟩ := st
  by_cases hcl : Period.Match p i.ClosedAt = true
  · by_cases hpr : i.PR = true
    · by_cases hmg : i.Merged = true
      · cases hmb : i.MergedBy with
        | some mb => simp [closeStep, hcl, hpr, hmg, hmb]
        | none => simp [closeStep, hcl, hpr, hmg, hmb]
      · rw [Bool.not_eq_true] at hmg
        simp [closeStep, hcl, hpr, hmg]
    · rw [Bool.not_eq_true] at hpr
      simp [closeStep, hcl, hpr]
  · rw [Bool.not_eq_true] at hcl
    cases b with
    | true => simp [closeStep, hcl]
    | false => simp [closeStep, hcl]

theorem closeStep_users_mono (p : Period) (i : Item) (st : RepoState × Bool)
    (k : String) (h : (Users.lookup st.1.users k).isSome = true) :
    (Users.lookup (closeStep p i st).users k).isSome = true := by
  obtain ⟨s, b⟩ := st
  by_cases hcl : Period.Match p i.ClosedAt = true
  · by_cases hpr : i.PR = true
    · by_cases hmg : i.Merged = true
      · cases hmb : i.MergedBy with
        | some mb =>
            simp only [closeStep, hcl, hpr, hmg, hmb, if_pos]
            exact Users.lookup_store_isSome_mono _ _ _ _ h
        | none => simpa [closeStep, hcl, hpr, hmg, hmb] using h
      · rw [Bool.not_eq_true] at hmg
        simpa [closeStep, hcl, hpr, hmg] using h
    · rw [Bool.not_eq_true] at hpr
      simpa [closeStep, hcl, hpr] using h
  · rw [Bool.not_eq_true] at hcl
    cases b with
    | true => simpa [closeStep, hcl] using h
    | false => simpa [closeStep, hcl] using h

theorem closeStep_contributors_mono (p : Period) (i : Item)
    (st : RepoState × Bool) (k : String)
    (h : (Users.lookup st.1.contributors k).isSome = true) :
    (Users.lookup (closeStep p i st).contributors k).isSome = true := by
  obtain ⟨s, b⟩ := st
  by_cases hcl : Period.Match p i.ClosedAt = true
  · by_cases hpr : i.PR = true
    · by_cases hmg : i.Merged = true
      · cases hmb : i.MergedBy with
        | some mb =>
            simp only [closeStep, hcl, hpr, hmg, hmb, if_pos]
            exact Users.lookup_store_isSome_mono _ _ _ _ h
        | none => simpa [closeStep, hcl, hpr, hmg, hmb] using h
      · rw [Bool.not_eq_true] at hmg
        simpa [closeStep, hcl, hpr, hmg] using h
    · rw [Bool.not_eq_true] at hpr
      simpa [closeStep, hcl, hpr] using h
  · rw [Bool.not_eq_true] at hcl
    cases b with
    | true => simpa [closeStep, hcl] using h
    | false => simpa [closeStep, hcl] using h

theorem closeStep_mergedBy_mem (p : Period) (i : Item) (st : RepoState × Bool)
    (hcl : Period.Match p i.ClosedAt = true) (hpr : i.PR = true)
    (hmg : i.Merged = true) (mb : User) (hmb : i.MergedBy = some mb) :
    (Users.lookup (closeStep p i st).users mb.ID).isSome = true ∧
    (Users.lookup (closeStep p i st).contributors mb.ID).isSome = true := by
  obtain ⟨s, b⟩ := st
  constructor <;>
    · simp only [closeStep, hcl, hpr, hmg, hmb, if_pos]
      rw [Users.lookup_store_self]; rfl

theorem closeStep_inv (p : Period) (i : Item) (st : RepoState × Bool)
    (hinv : MapsInv st.1) : MapsInv (closeStep p i st) := by
  obtain ⟨s, b⟩ := st
  obtain ⟨hsub, hnu, hnc⟩ := hinv
  by_cases hcl : Period.Match p i.ClosedAt = true
  · by_cases hpr : i.PR = true
    · by_cases hmg : i.Merged = true
      · cases hmb : i.MergedBy with
        | some mb =>
            refine ⟨?_, ?_, ?_⟩
            · intro k hk
              simp only [closeStep, hcl, hpr, hmg, hmb, if_pos] at hk ⊢
              rw [Users.lookup_store] at hk
              by_cases hkm : mb.ID = k
              · subst hkm; rw [Users.lookup_store_self]; rfl
              · rw [if_neg hkm] at hk
                exact Users.lookup_store_isSome_mono _ _ _ _ (hsub k hk)
            · simpa [closeStep, hcl, hpr, hmg, hmb] using
                Users.keys_store_nodup _ _ _ hnu
            · simpa [closeStep, hcl, hpr, hmg, hmb] using
                Users.keys_store_nodup _ _ _ hnc
        | none =>
            exact ⟨by simpa [closeStep, hcl, hpr, hmg, hmb] using hsub,
                   by simpa [closeStep, hcl, hpr, hmg, hmb] using hnu,
                   by simpa [closeStep, hcl, hpr, hmg, hmb] using hnc⟩
      · rw [Bool.not_eq_true] at hmg
        exact ⟨by simpa [closeStep, hcl, hpr, hmg] using hsub,
               by simpa [closeStep, hcl, hpr, hmg] using hnu,
               by simpa [closeStep, hcl, hpr, hmg] using hnc⟩
    · rw [Bool.not_eq_true] at hpr
      exact ⟨by simpa [closeStep, hcl, hpr] using hsub,
             by simpa [closeStep, hcl, hpr] using hnu,
             by simpa [closeStep, hcl, hpr] using hnc⟩
  · rw [Bool.not_eq_true] at hcl
    cases b with
    | true =>
        exact ⟨by simpa [closeStep, hcl] using hsub,
               by simpa [closeStep, hcl] using hnu,
               by simpa [closeStep, hcl] using hnc⟩
    | false =>
        exact ⟨by simpa [closeStep, hcl] using hsub,
               by simpa [closeStep, hcl] using hnu,
               by simpa [closeStep, hcl] using hnc⟩

theorem processItem_eq_some (p : Period) (s : RepoState) (i : Item)
    (creator : User) (hcb : i.CreatedBy = some creator) :
    processItem p s i =
      match commentsLoop p i.Comments
          ({ s with users := Users.store s.users creator.ID creator }, false) with
      | none => none
      | some st => some (closeStep p i (createStep p creator i st)) := by
  simp [processItem, hcb]

theorem processItem_isSome (p : Period) (s : RepoState) (i : Item)
    (hcb : i.CreatedBy.isSome = true)
    (hcs : ∀ c ∈ i.Comments, c.User.isSome = true) :
    (processItem p s i).isSome = true := by
  obtain ⟨creator, hcb'⟩ := Option.isSome_iff_exists.mp hcb
  have hsome := commentsLoop_isSome p i.Comments
    { s with users := Users.store s.users creator.ID creator } false hcs
  obtain ⟨st, hst⟩ := Option.isSome_iff_exists.mp hsome
  rw [processItem_eq_some p s i creator hcb', hst]
  rfl

theorem processItem_spec (p : Period) (s : RepoState) (i : Item) (s' : RepoState)
    (h : processItem p s i = some s') :
    s'.mergedPRs = s.mergedPRs ++ (if mergedCond p i then [i] else []) ∧
    s'.closedIssues = s.closedIssues ++ (if closedCond p i then [i] else []) ∧
    s'.updatedItems = s.updatedItems ++ (if updCond p i then [i] else []) ∧
    s'.contributions = s.contributions + itemContrib p i ∧
    (∀ k, (Users.lookup s.users k).isSome = true →
        (Users.lookup s'.users k).isSome = true) ∧
    (∀ k, (Users.lookup s.contributors k).isSome = true →
        (Users.lookup s'.contributors k).isSome = true) ∧
    (∀ cb, i.CreatedBy = some cb →
        (Users.lookup s'.users cb.ID).isSome = true) ∧
    (∀ c ∈ i.Comments, ∀ u, c.User = some u →
        (Users.lookup s'.users u.ID).isSome = true ∧
        (Period.Match p c.CreatedAt = true →
          (Users.lookup s'.contributors u.ID).isSome = true)) ∧
    (Period.Match p i.CreatedAt = true → ∀ cb, i.CreatedBy = some cb →
        (Users.lookup s'.contributors cb.ID).isSome = true) ∧
    (mergedCond p i = true → ∀ mb, i.MergedBy = some mb →
        (Users.lookup s'.users mb.ID).isSome = true ∧
        (Users.lookup s'.contributors mb.ID).isSome = true) ∧
    (MapsInv s → MapsInv s') := by
  cases hcb : i.CreatedBy with
  | none => rw [processItem, hcb] at h; exact absurd h (by simp)
  | some creator =>
      rw [processItem_eq_some p s i creator hcb] at h
      set s0 : RepoState :=
        { s with users := Users.store s.users creator.ID creator } with hs0
      cases hcl0 : commentsLoop p i.Comments (s0, false) with
      | none => rw [hcl0] at h; exact absurd h (by simp)
      | some st =>
          obtain ⟨s1, b1⟩ := st
          rw [hcl0] at h
          have h : closeStep p i (createStep p creator i (s1, b1)) = s' :=
            Option.some.inj h
          have hs0m : s0.mergedPRs = s.mergedPRs := by rw [hs0]
          have hs0cl : s0.closedIssues = s.closedIssues := by rw [hs0]
          have hs0up : s0.updatedItems = s.updatedItems := by rw [hs0]
          have hs0co : s0.contributions = s.contributions := by rw [hs0]
          have hs0ct : s0.contributors = s.contributors := by rw [hs0]
          have hs0us : s0.users = Users.store s.users creator.ID creator := by rw [hs0]
          obtain ⟨hfr1, hfr2, hfr3, hfr4, hfr5⟩ :=
            commentsLoop_frame p i.Comments s0 false s1 b1 hcl0
          have hco := commentsLoop_contrib p i.Comments s0 false s1 b1 hcl0
          have hfl := commentsLoop_flag p i.Comments s0 false s1 b1 hcl0
          simp only [Bool.false_or] at hfl
          obtain ⟨hc1, hc2, hc3, hc4, hc5, hc6⟩ :=
            createStep_state p creator i s1 b1
          obtain ⟨hz1, hz2, hz3, hz4, hz5, hz6⟩ :=
            closeStep_state p i (createStep p creator i (s1, b1))
          have hb2 : (createStep p creator i (s1, b1)).2 = touched p i := by
            rw [hc6, hfl, touched]
          refine ⟨?_, ?_, ?_, ?_, ?_, ?_, ?_, ?_, ?_, ?_, ?_⟩
          · rw [← h, hz1, hc1, hfr1, hs0m, mergedCond]
          · rw [← h, hz2, hc2, hfr2, hs0cl, closedCond]
          · rw [← h, hz3, hc3, hfr3, hs0up, hb2, updCond]
          · rw [← h, hz4, hc5, hco, hs0co, itemContrib]
            omega
          · intro k hk
            have h1 : (Users.lookup s0.users k).isSome = true := by
              rw [hs0us]
              exact Users.lookup_store_isSome_mono _ _ _ _ hk
            have h2 := commentsLoop_users_mono p i.Comments s0 false s1 b1 hcl0 k h1
            have h3 : (Users.lookup (createStep p creator i (s1, b1)).1.users k).isSome
                = true := by rw [hc4]; exact h2
            have h4 := closeStep_users_mono p i (createStep p creator i (s1, b1)) k h3
            rw [← h]; exact h4
          · intro k hk
            have h1 : (Users.lookup s0.contributors k).isSome = true := by
              rw [hs0ct]; exact hk
            have h2 :=
              commentsLoop_contributors_mono p i.Comments s0 false s1 b1 hcl0 k h1
            have h3 := createStep_contributors_mono p creator i s1 b1 k h2
            have h4 :=
              closeStep_contributors_mono p i (createStep p creator i (s1, b1)) k h3
            rw [← h]; exact h4
          · intro cb hcb'
            injection hcb' with hcb''
            subst hcb''
            have h1 : (Users.lookup s0.users creator.ID).isSome = true := by
              rw [hs0us, Users.lookup_store_self]; rfl
            have h2 :=
              commentsLoop_users_mono p i.Comments s0 false s1 b1 hcl0 creator.ID h1
            have h3 : (Users.lookup (createStep p creator i (s1, b1)).1.users
                creator.ID).isSome = true := by rw [hc4]; exact h2
            have h4 :=
              closeStep_users_mono p i (createStep p creator i (s1, b1)) creator.ID h3
            rw [← h]; exact h4
          · intro c hcmem u hu
            have hmem := commentsLoop_mem p i.Comments s0 false s1 b1 hcl0 c hcmem u hu
            constructor
            · have h3 : (Users.lookup (createStep p creator i (s1, b1)).1.users u.ID).isSome
                  = true := by rw [hc4]; exact hmem.1
              have h4 := closeStep_users_mono p i (createStep p creator i (s1, b1)) u.ID h3
              rw [← h]; exact h4
            · intro hm
              have h3 := createStep_contributors_mono p creator i s1 b1 u.ID (hmem.2 hm)
              have h4 :=
                closeStep_contributors_mono p i (createStep p creator i (s1, b1)) u.ID h3
              rw [← h]; exact h4
          · intro hm cb hcb'
            injection hcb' with hcb''
            subst hcb''
            have h3 := createStep_creator_mem p creator i s1 b1 hm
            have h4 := closeStep_contributors_mono p i
              (createStep p creator i (s1, b1)) creator.ID h3
            rw [← h]; exact h4
          · intro hmc mb hmb
            rw [mergedCond] at hmc
            simp only [Bool.and_eq_true] at hmc
            have h4 := closeStep_mergedBy_mem p i (createStep p creator i (s1, b1))
              hmc.1.1 hmc.1.2 hmc.2 mb hmb
            rw [← h]; exact h4
          · intro hinv
            obtain ⟨hsub, hnu, hnc⟩ := hinv
            have hinv0 : MapsInv s0 := by
              refine ⟨?_, ?_, ?_⟩
              · intro k hk
                rw [hs0ct] at hk
                rw [hs0us]
                exact Users.lookup_store_isSome_mono _ _ _ _ (hsub k hk)
              · rw [hs0us]
                exact Users.keys_store_nodup _ _ _ hnu
              · rw [hs0ct]
                exact hnc
            have hinv1 := commentsLoop_inv p i.Comments s0 false s1 b1 hcl0 hinv0
            have hcr0 : (Users.lookup s0.users creator.ID).isSome = true := by
              rw [hs0us, Users.lookup_store_self]; rfl
            have hcr1 :=
              commentsLoop_users_mono p i.Comments s0 false s1 b1 hcl0 creator.ID hcr0
            have hinv2 := createStep_inv p creator i s1 b1 hinv1 hcr1
            have hinv3 := closeStep_inv p i (createStep p creator i (s1, b1)) hinv2
            rw [← h]; exact hinv3

theorem mem_ite_singleton (x i : Item) (c : Bool) :
    x ∈ (if c = true then [i] else []) ↔ (c = true ∧ x = i) := by
  cases c <;> simp

theorem repoLoop_isSome (p : Period) (items : List Item) :
    ∀ s, (∀ i ∈ items,
        i.CreatedBy.isSome = true ∧ ∀ c ∈ i.Comments, c.User.isSome = true) →
      (repoLoop p items s).isSome = true := by
  induction items with
  | nil => intro s _; simp [repoLoop]
  | cons i rest ih =>
      intro s hall
      have hi := hall i (List.mem_cons_self i rest)
      have hsome := processItem_isSome p s i hi.1 hi.2
      obtain ⟨s', hs'⟩ := Option.isSome_iff_exists.mp hsome
      rw [repoLoop, hs']
      exact ih s' (fun j hj => hall j (List.mem_cons_of_mem i hj))

theorem repoLoop_contrib (p : Period) (items : List Item) :
    ∀ s res, repoLoop p items s = some res →
      res.contributions = s.contributions + sumContrib p items := by
  induction items with
  | nil =>
      intro s res h
      simp [repoLoop] at h
      rw [← h]
      simp [sumContrib]
  | cons i rest ih =>
      intro s res h
      cases hpi : processItem p s i with
      | none => rw [repoLoop, hpi] at h; exact absurd h (by simp)
      | some s1 =>
          rw [repoLoop, hpi] at h
          have hstep := (processItem_spec p s i s1 hpi).2.2.2.1
          have hres := ih s1 res h
          rw [hres, hstep]
          simp only [sumContrib, List.map_cons, List.sum_cons]
          omega

theorem repoLoop_preserves (p : Period) (phi : RepoState → Prop)
    (hmono : ∀ s j s', processItem p s j = some s' → phi s → phi s') :
    ∀ items s res, repoLoop p items s = some res → phi s → phi res := by
  intro items
  induction items with
  | nil =>
      intro s res h hs
      simp [repoLoop] at h
      rw [← h]; exact hs
  | cons i rest ih =>
      intro s res h hs
      cases hpi : processItem p s i with
      | none => rw [repoLoop, hpi] at h; exact absurd h (by simp)
      | some s1 =>
          rw [repoLoop, hpi] at h
          exact ih s1 res h (hmono s i s1 hpi hs)

theorem repoLoop_establishes (p : Period) (phi : RepoState → Prop) (i : Item)
    (hmono : ∀ s j s', processItem p s j = some s' → phi s → phi s')
    (hestab : ∀ s s', processItem p s i = some s' → phi s') :
    ∀ items s res, i ∈ items → repoLoop p items s = some res → phi res := by
  intro items
  induction items with
  | nil => intro s res hmem _; exact absurd hmem (List.not_mem_nil i)
  | cons j rest ih =>
      intro s res hmem h
      cases hpi : processItem p s j with
      | none => rw [repoLoop, hpi] at h; exact absurd h (by simp)
      | some s1 =>
          rw [repoLoop, hpi] at h
          rcases List.mem_cons.mp hmem with hij | hrest
          · subst hij
            exact repoLoop_preserves p phi hmono rest s1 res h (hestab s s1 hpi)
          · exact ih s1 res hrest h

theorem repoLoop_mem_generic (p : Period) (proj : RepoState → List Item)
    (cond : Item → Bool)
    (hstep : ∀ s j s', processItem p s j = some s' →
        proj s' = proj s ++ (if cond j = true then [j] else [])) :
    ∀ items s res, repoLoop p items s = some res → ∀ x,
      (x ∈ proj res ↔ x ∈ proj s ∨ (x ∈ items ∧ cond x = true)) := by
  intro items
  induction items with
  | nil =>
      intro s res h x
      simp [repoLoop] at h
      rw [← h]
      simp
  | cons i rest ih =>
      intro s res h x
      cases hpi : processItem p s i with
      | none => rw [repoLoop, hpi] at h; exact absurd h (by simp)
      | some s1 =>
          rw [repoLoop, hpi] at h
          rw [ih s1 res h x, hstep s i s1 hpi]
          rw [List.mem_append, mem_ite_singleton]
          constructor
          · rintro ((hx | ⟨hc, hxi⟩) | ⟨hxr, hc⟩)
            · exact Or.inl hx
            · subst hxi
              exact Or.inr ⟨List.mem_cons_self x rest, hc⟩
            · exact Or.inr ⟨List.mem_cons_of_mem i hxr, hc⟩
          · rintro (hx | ⟨hxm, hc⟩)
            · exact Or.inl (Or.inl hx)
            · rcases List.mem_cons.mp hxm with hxi | hxr
              · subst hxi
                exact Or.inl (Or.inr ⟨hc, rfl⟩)
              · exact Or.inr ⟨hxr, hc⟩

theorem repoLoop_mem_merged (p : Period) (items : List Item) (s res : RepoState)
    (h : repoLoop p items s = some res) (x : Item) :
    x ∈ res.mergedPRs ↔ x ∈ s.mergedPRs ∨ (x ∈ items ∧ mergedCond p x = true) :=
  repoLoop_mem_generic p (fun r => r.mergedPRs) (mergedCond p)
    (fun s j s' hpi => (processItem_spec p s j s' hpi).1) items s res h x

theorem repoLoop_mem_closed (p : Period) (items : List Item) (s res : RepoState)
    (h : repoLoop p items s = some res) (x : Item) :
    x ∈ res.closedIssues ↔ x ∈ s.closedIssues ∨ (x ∈ items ∧ closedCond p x = true) :=
  repoLoop_mem_generic p (fun r => r.closedIssues) (closedCond p)
    (fun s j s' hpi => (processItem_spec p s j s' hpi).2.1) items s res h x

theorem repoLoop_mem_updated (p : Period) (items : List Item) (s res : RepoState)
    (h : repoLoop p items s = some res) (x : Item) :
    x ∈ res.updatedItems ↔ x ∈ s.updatedItems ∨ (x ∈ items ∧ updCond p x = true) :=
  repoLoop_mem_generic p (fun r => r.updatedItems) (updCond p)
    (fun s j s' hpi => (processItem_spec p s j s' hpi).2.2.1) items s res h x

theorem count_ite_singleton (x i : Item) (c : Bool) :
    List.count x (if c = true then [i] else [])
      = if c = true ∧ i = x then 1 else 0 := by
  cases c
  · simp
  · by_cases hx : i = x <;> simp [hx, List.count_cons]

theorem conds_mutex (p : Period) (i : Item) :
    (if mergedCond p i = true then (1 : Nat) else 0)
      + (if closedCond p i = true then 1 else 0)
      + (if updCond p i = true then 1 else 0) ≤ 1 := by
  simp only [mergedCond, closedCond, updCond]
  rcases Bool.eq_false_or_eq_true (Period.Match p i.ClosedAt) with hcl | hcl <;>
    rcases Bool.eq_false_or_eq_true i.PR with hpr | hpr <;>
      rcases Bool.eq_false_or_eq_true i.Merged with hmg | hmg <;>
        rcases Bool.eq_false_or_eq_true (touched p i) with hto | hto <;>
          simp [hcl, hpr, hmg, hto]

theorem repoLoop_count (p : Period) (items : List Item) :
    ∀ s res, repoLoop p items s = some res → ∀ x,
      List.count x res.mergedPRs + List.count x res.closedIssues
          + List.count x res.updatedItems
        ≤ List.count x s.mergedPRs + List.count x s.closedIssues
          + List.count x s.updatedItems + List.count x items := by
  induction items with
  | nil =>
      intro s res h x
      simp [repoLoop] at h
      rw [← h]
      simp
  | cons i rest ih =>
      intro s res h x
      cases hpi : processItem p s i with
      | none => rw [repoLoop, hpi] at h; exact absurd h (by simp)
      | some s1 =>
          rw [repoLoop, hpi] at h
          have hih := ih s1 res h x
          obtain ⟨h1, h2, h3, _⟩ := processItem_spec p s i s1 hpi
          rw [h1, h2, h3] at hih
          rw [List.count_append, List.count_append, List.count_append] at hih
          rw [count_ite_singleton, count_ite_singleton, count_ite_singleton] at hih
          by_cases hx : i = x
          · subst hx
            simp only [and_true] at hih
            have hmx := conds_mutex p i
            have hcnt : List.count i (i :: rest) = List.count i rest + 1 := by
              simp [List.count_cons]
            omega
          · simp only [hx, and_false, if_false] at hih
            have hcnt : List.count x (i :: rest) = List.count x rest := by
              simp [List.count_cons, hx]
            omega

theorem repoLoop_inv (p : Period) (items : List Item) (s res : RepoState)
    (h : repoLoop p items s = some res) (hs : MapsInv s) : MapsInv res :=
  repoLoop_preserves p MapsInv
    (fun s j s' hpi => (processItem_spec p s j s' hpi).2.2.2.2.2.2.2.2.2.2)
    items s res h hs

/-- `RepoState.init` satisfies the map invariant. -/
theorem mapsInv_init : MapsInv RepoState.init := by
  refine ⟨?_, ?_, ?_⟩ <;> simp [RepoState.init, Users.lookup, Users.keys]

/-- The comment scan shared by both `userReport` loops: find the first
comment by `user` whose timestamp is in-period (`some true` models the Go
`break` after appending, `some false` a scan that found nothing, and `none`
the panic on a nil comment author that the `&&` short-circuit only reaches
for in-period comments). -/
def findComment (p : Period) (user : String) : List Comment → Option Bool
  | [] => some false
  | c :: rest =>
      if Period.Match p c.CreatedAt then
        match c.User with
        | none => none
        | some u =>
            if u.ID = user then some true else findComment p user rest
      else findComment p user rest

/-- The comment-scan tail of the PR loop in `userReport`: append the PR to
the reviewed-PRs bucket when an in-period comment by `user` exists. -/
def prCommentCheck (p : Period) (user : String) (st : List Item × List Item)
    (pr : Item) : Option (List Item × List Item) :=
  match findComment p user pr.Comments with
  | none => none
  | some true => some (st.1, st.2 ++ [pr])
  | some false => some st

/-- The second condition of the PR loop in `userReport`:
`period.Match(pr.ClosedAt) && pr.MergedBy != nil && pr.MergedBy.ID == user`
routes to reviewed PRs (with `continue`), otherwise the comment scan runs. -/
def prClosedCheck (p : Period) (user : String) (st : List Item × List Item)
    (pr : Item) : Option (List Item × List Item) :=
  if Period.Match p pr.ClosedAt then
    match pr.MergedBy with
    | some mb =>
        if mb.ID = user then some (st.1, st.2 ++ [pr])
        else prCommentCheck p user st pr
    | none => prCommentCheck p user st pr
  else prCommentCheck p user st pr

/-- Body of the PR loop of `userReport`.  The first condition
`period.Match(pr.CreatedAt) && pr.CreatedBy.ID == user` dereferences
`CreatedBy` only when the period matches (Go `&&` short-circuits). -/
def processUserPR (p : Period) (user : String) (st : List Item × List Item)
    (pr : Item) : Option (List Item × List Item) :=
  if Period.Match p pr.CreatedAt then
    match pr.CreatedBy with
    | none => none
    | some cb =>
        if cb.ID = user then some (st.1 ++ [pr], st.2)
        else prClosedCheck p user st pr
  else prClosedCheck p user st pr

/-- The comment-scan tail of the issue loop in `userReport`. -/
def issueCommentCheck (p : Period) (user : String) (st : List Item × List Item)
    (i : Item) : Option (List Item × List Item) :=
  match findComment p user i.Comments with
  | none => none
  | some true => some (st.1, st.2 ++ [i])
  | some false => some st

/-- Body of the issue loop of `userReport`. -/
def processUserIssue (p : Period) (user : String) (st : List Item × List Item)
    (i : Item) : Option (List Item × List Item) :=
  if Period.Match p i.CreatedAt then
    match i.CreatedBy with
    | none => none
    | some cb =>
        if cb.ID = user then some (st.1 ++ [i], st.2)
        else issueCommentCheck p user st i
  else issueCommentCheck p user st i

/-- A `for` loop over items threading a pair of buckets, failing when the
body panics. -/
def pairLoop (f : (List Item × List Item) → Item → Option (List Item × List Item)) :
    List Item → (List Item × List Item) → Option (List Item × List Item)
  | [], st => some st
  | x :: rest, st =>
      match f st x with
      | none => none
      | some st' => pairLoop f rest st'

/-- `userReport` from the source, restricted to its classification passes:
the PR loop fills (user's PRs, reviewed PRs) and the issue loop fills
(user's issues, issues commented on); printing is not modelled. -/
def userReport (p : Period) (user : String) (allPRs allIssues : List Item) :
    Option ((List Item × List Item) × (List Item × List Item)) :=
  match pairLoop (processUserPR p user) allPRs ([], []) with
  | none => none
  | some prs =>
      match pairLoop (processUserIssue p user) allIssues ([], []) with
      | none => none
      | some iss => some (prs, iss)

theorem prCommentCheck_cases (p : Period) (user : String)
    (st : List Item × List Item) (pr : Item) (st' : List Item × List Item)
    (h : prCommentCheck p user st pr = some st') :
    st' = st ∨ st' = (st.1 ++ [pr], st.2) ∨ st' = (st.1, st.2 ++ [pr]) := by
  rw [prCommentCheck] at h
  cases hfc : findComment p user pr.Comments with
  | none => rw [hfc] at h; exact absurd h (by simp)
  | some b =>
      rw [hfc] at h
      cases b with
      | true =>
          right; right
          exact (Option.some.inj h).symm
      | false =>
          left
          exact (Option.some.inj h).symm

theorem prClosedCheck_cases (p : Period) (user : String)
    (st : List Item × List Item) (pr : Item) (st' : List Item × List Item)
    (h : prClosedCheck p user st pr = some st') :
    st' = st ∨ st' = (st.1 ++ [pr], st.2) ∨ st' = (st.1, st.2 ++ [pr]) := by
  rw [prClosedCheck] at h
  by_cases hcl : Period.Match p pr.ClosedAt = true
  · rw [if_pos hcl] at h
    cases hmb : pr.MergedBy with
    | none =>
        simp only [hmb] at h
        exact prCommentCheck_cases p user st pr st' h
    | some mb =>
        simp only [hmb] at h
        by_cases hid : mb.ID = user
        · rw [if_pos hid] at h
          right; right
          exact (Option.some.inj h).symm
        · rw [if_neg hid] at h
          exact prCommentCheck_cases p user st pr st' h
  · rw [if_neg hcl] at h
    exact prCommentCheck_cases p user st pr st' h

theorem processUserPR_cases (p : Period) (user : String)
    (st : List Item × List Item) (pr : Item) (st' : List Item × List Item)
    (h : processUserPR p user st pr = some st') :
    st' = st ∨ st' = (st.1 ++ [pr], st.2) ∨ st' = (st.1, st.2 ++ [pr]) := by
  rw [processUserPR] at h
  by_cases hcr : Period.Match p pr.CreatedAt = true
  · rw [if_pos hcr] at h
    cases hcb : pr.CreatedBy with
    | none =>
        simp only [hcb] at h
        exact absurd h (by simp)
    | some cb =>
        simp only [hcb] at h
        by_cases hid : cb.ID = user
        · rw [if_pos hid] at h
          right; left
          exact (Option.some.inj h).symm
        · rw [if_neg hid] at h
          exact prClosedCheck_cases p user st pr st' h
  · rw [if_neg hcr] at h
    exact prClosedCheck_cases p user st pr st' h

theorem issueCommentCheck_cases (p : Period) (user : String)
    (st : List Item × List Item) (i : Item) (st' : List Item × List Item)
    (h : issueCommentCheck p user st i = some st') :
    st' = st ∨ st' = (st.1 ++ [i], st.2) ∨ st' = (st.1, st.2 ++ [i]) := by
  rw [issueCommentCheck] at h
  cases hfc : findComment p user i.Comments with
  | none => rw [hfc] at h; exact absurd h (by simp)
  | some b =>
      rw [hfc] at h
      cases b with
      | true =>
          right; right
          exact (Option.some.inj h).symm
      | false =>
          left
          exact (Option.some.inj h).symm

theorem processUserIssue_cases (p : Period) (user : String)
    (st : List Item × List Item) (i : Item) (st' : List Item × List Item)
    (h : processUserIssue p user st i = some st') :
    st' = st ∨ st' = (st.1 ++ [i], st.2) ∨ st' = (st.1, st.2 ++ [i]) := by
  rw [processUserIssue] at h
  by_cases hcr : Period.Match p i.CreatedAt = true
  · rw [if_pos hcr] at h
    cases hcb : i.CreatedBy with
    | none =>
        simp only [hcb] at h
        exact absurd h (by simp)
    | some cb =>
        simp only [hcb] at h
        by_cases hid : cb.ID = user
        · rw [if_pos hid] at h
          right; left
          exact (Option.some.inj h).symm
        · rw [if_neg hid] at h
          exact issueCommentCheck_cases p user st i st' h
  · rw [if_neg hcr] at h
    exact issueCommentCheck_cases p user st i st' h

theorem pairLoop_count
    (f : (List Item × List Item) → Item → Option (List Item × List Item))
    (hcases : ∀ st x st', f st x = some st' →
      st' = st ∨ st' = (st.1 ++ [x], st.2) ∨ st' = (st.1, st.2 ++ [x])) :
    ∀ (items : List Item) st res, pairLoop f items st = some res → ∀ x,
      List.count x res.1 + List.count x res.2
        ≤ List.count x st.1 + List.count x st.2 + List.count x items := by
  intro items
  induction items with
  | nil =>
      intro st res h x
      simp [pairLoop] at h
      rw [← h]
      simp
  | cons i rest ih =>
      intro st res h x
      cases hf : f st i with
      | none => rw [pairLoop, hf] at h; exact absurd h (by simp)
      | some st1 =>
          rw [pairLoop, hf] at h
          have hih := ih st1 res h x
          by_cases hx : i = x
          · subst hx
            have h1 : List.count i (i :: rest) = List.count i rest + 1 := by
              simp [List.count_cons]
            have h2 : List.count i [i] = 1 := by simp
            rcases hcases st i st1 hf with hc | hc | hc <;> subst hc
            · omega
            · simp only [List.count_append, h2] at hih
              omega
            · simp only [List.count_append, h2] at hih
              omega
          · have h1 : List.count x (i :: rest) = List.count x rest := by
              simp [List.count_cons, hx]
            have h2 : List.count x [i] = 0 := by
              simp [List.count_cons, hx]
            rcases hcases st i st1 hf with hc | hc | hc <;> subst hc
            · omega
            · simp only [List.count_append, h2] at hih
              omega
            · simp only [List.count_append, h2] at hih
              omega

theorem nodup_subset_length_le {α : Type} [DecidableEq α] (l1 l2 : List α)
    (h1 : l1.Nodup) (hs : ∀ x ∈ l1, x ∈ l2) : l1.length ≤ l2.length := by
  calc l1.length = l1.toFinset.card := (List.toFinset_card_of_nodup h1).symm
    _ ≤ l2.toFinset.card := by
        apply Finset.card_le_card
        intro x hx
        rw [List.mem_toFinset] at hx ⊢
        exact hs x hx
    _ ≤ l2.length := l2.toFinset_card_le

/-- Claim C1 (counterexample input): an issue whose `CreatedBy` reference is
absent, as the data model allows. -/
def itemNoCreator : Item :=
  { PR := false, ID := "o/r#1", Repo := "o/r", Number := 1, State := "open",
    Title := "t", URL := "u", CreatedBy := none, CreatedAt := 50,
    UpdatedAt := 50, ClosedAt := 0, Comments := [], Merged := false,
    MergedAt := 0, MergedBy := none }

/-- Claim C1 is false as stated: on an item with an absent `createdBy`
reference (allowed by the data model of §3) the classification pass of
`repoReport` dereferences the nil pointer (`users[i.CreatedBy.ID]`) and
panics instead of completing. -/
theorem repoReport_panics_on_absent_creator :
    repoReport { Start := 0, End := 100 } [] [itemNoCreator] = none := by
  rfl

/-- Claim C1 (amended): the repository-mode classification pass completes and
produces buckets and counters on every Items collection in which every item's
`createdBy` reference and every comment's `user` reference are present
(`mergedBy` may still be absent), for every Period. -/
theorem repoReport_total_of_refs_present (p : Period)
    (allPRs allIssues : List Item)
    (h : ∀ i ∈ allPRs ++ allIssues,
        i.CreatedBy.isSome = true ∧ ∀ c ∈ i.Comments, c.User.isSome = true) :
    (repoReport p allPRs allIssues).isSome = true :=
  repoLoop_isSome p (allPRs ++ allIssues) RepoState.init h

/-- Shared concrete scenario for the repository-mode witnesses: a PR created
in-period by `creator1`, commented in-period by `alice`, closed and merged
in-period by `bob`. -/
def wUser1 : User := { ID := "creator1", URL := "https://example.com/c1" }

def wUser2 : User := { ID := "alice", URL := "https://example.com/alice" }

def wUser3 : User := { ID := "bob", URL := "https://example.com/bob" }

def wPeriod : Period := { Start := 0, End := 100 }

def wComment : Comment := { CreatedAt := 50, User := some wUser2 }

def wPR : Item :=
  { PR := true, ID := "o/r#1", Repo := "o/r", Number := 1, State := "closed",
    Title := "T", URL := "u", CreatedBy := some wUser1, CreatedAt := 10,
    UpdatedAt := 60, ClosedAt := 60, Comments := [wComment], Merged := true,
    MergedAt := 60, MergedBy := some wUser3 }

/-- An issue created in-period (touched) but not closed in-period. -/
def wIssue : Item :=
  { PR := false, ID := "o/r#2", Repo := "o/r", Number := 2, State := "open",
    Title := "I", URL := "u2", CreatedBy := some wUser1, CreatedAt := 20,
    UpdatedAt := 20, ClosedAt := 0, Comments := [], Merged := false,
    MergedAt := 0, MergedBy := none }

/-- The concrete classification result of the witness scenario. -/
def wRes : RepoState := (repoReport wPeriod [wPR] [wIssue]).getD RepoState.init

theorem repoReport_total_of_refs_present_witness :
    (∀ i ∈ [wPR] ++ [wIssue],
        i.CreatedBy.isSome = true ∧ ∀ c ∈ i.Comments, c.User.isSome = true) ∧
    (repoReport wPeriod [wPR] [wIssue]).isSome = true :=
  ⟨by decide, repoReport_total_of_refs_present wPeriod [wPR] [wIssue] (by decide)⟩

/-- Claim C2: in repository-mode classification the contribution counter is
incremented exactly once per in-period comment and once per in-period item
creation, the author of every in-period comment is added to the contributor
set, and every comment's author is added to the global user set regardless of
the period. -/
theorem repoReport_comment_contributions (p : Period)
    (allPRs allIssues : List Item) (res : RepoState)
    (h : repoReport p allPRs allIssues = some res) :
    res.contributions = sumContrib p (allPRs ++ allIssues) ∧
    (∀ i ∈ allPRs ++ allIssues, ∀ c ∈ i.Comments, ∀ u, c.User = some u →
      (Users.lookup res.users u.ID).isSome = true ∧
      (Period.Match p c.CreatedAt = true →
        (Users.lookup res.contributors u.ID).isSome = true)) := by
  constructor
  · have hc := repoLoop_contrib p (allPRs ++ allIssues) RepoState.init res h
    simpa [RepoState.init] using hc
  · intro i hi c hc u hu
    constructor
    · exact repoLoop_establishes p
        (fun r => (Users.lookup r.users u.ID).isSome = true) i
        (fun s j s' hpi hk =>
          (processItem_spec p s j s' hpi).2.2.2.2.1 u.ID hk)
        (fun s s' hpi =>
          ((processItem_spec p s i s' hpi).2.2.2.2.2.2.2.1 c hc u hu).1)
        (allPRs ++ allIssues) RepoState.init res hi h
    · intro hm
      exact repoLoop_establishes p
        (fun r => (Users.lookup r.contributors u.ID).isSome = true) i
        (fun s j s' hpi hk =>
          (processItem_spec p s j s' hpi).2.2.2.2.2.1 u.ID hk)
        (fun s s' hpi =>
          ((processItem_spec p s i s' hpi).2.2.2.2.2.2.2.1 c hc u hu).2 hm)
        (allPRs ++ allIssues) RepoState.init res hi h

theorem repoReport_comment_contributions_witness :
    repoReport wPeriod [wPR] [wIssue] = some wRes ∧
    (wRes.contributions = sumContrib wPeriod ([wPR] ++ [wIssue]) ∧
    (∀ i ∈ [wPR] ++ [wIssue], ∀ c ∈ i.Comments, ∀ u, c.User = some u →
      (Users.lookup wRes.users u.ID).isSome = true ∧
      (Period.Match wPeriod c.CreatedAt = true →
        (Users.lookup wRes.contributors u.ID).isSome = true))) :=
  ⟨by decide,
   repoReport_comment_contributions wPeriod [wPR] [wIssue] wRes (by decide)⟩

/-- Claim C3: a PR whose `closedAt` is in-period and which is merged is routed
to the merged-PRs bucket; when `mergedBy` is present that user is added to
both the global user set and the contributor set; and the contribution
counter receives no increment for the merge itself (it stays the sum of
in-period creations and comments). -/
theorem repoReport_merged_pr_routing (p : Period) (allPRs allIssues : List Item)
    (res : RepoState) (i : Item) (h : repoReport p allPRs allIssues = some res)
    (hi : i ∈ allPRs ++ allIssues) (hcl : Period.Match p i.ClosedAt = true)
    (hpr : i.PR = true) (hmg : i.Merged = true) :
    i ∈ res.mergedPRs ∧
    (∀ mb, i.MergedBy = some mb →
      (Users.lookup res.users mb.ID).isSome = true ∧
      (Users.lookup res.contributors mb.ID).isSome = true) ∧
    res.contributions = sumContrib p (allPRs ++ allIssues) := by
  have hmc : mergedCond p i = true := by
    simp [mergedCond, hcl, hpr, hmg]
  refine ⟨?_, ?_, ?_⟩
  · rw [repoLoop_mem_merged p (allPRs ++ allIssues) RepoState.init res h i]
    exact Or.inr ⟨hi, hmc⟩
  · intro mb hmb
    constructor
    · exact repoLoop_establishes p
        (fun r => (Users.lookup r.users mb.ID).isSome = true) i
        (fun s j s' hpi hk =>
          (processItem_spec p s j s' hpi).2.2.2.2.1 mb.ID hk)
        (fun s s' hpi =>
          ((processItem_spec p s i s' hpi).2.2.2.2.2.2.2.2.2.1 hmc mb hmb).1)
        (allPRs ++ allIssues) RepoState.init res hi h
    · exact repoLoop_establishes p
        (fun r => (Users.lookup r.contributors mb.ID).isSome = true) i
        (fun s j s' hpi hk =>
          (processItem_spec p s j s' hpi).2.2.2.2.2.1 mb.ID hk)
        (fun s s' hpi =>
          ((processItem_spec p s i s' hpi).2.2.2.2.2.2.2.2.2.1 hmc mb hmb).2)
        (allPRs ++ allIssues) RepoState.init res hi h
  · have hc := repoLoop_contrib p (allPRs ++ allIssues) RepoState.init res h
    simpa [RepoState.init] using hc

theorem repoReport_merged_pr_routing_witness :
    repoReport wPeriod [wPR] [wIssue] = some wRes ∧
    (wPR ∈ [wPR] ++ [wIssue] ∧ Period.Match wPeriod wPR.ClosedAt = true ∧
      wPR.PR = true ∧ wPR.Merged = true) ∧
    (wPR ∈ wRes.mergedPRs ∧
     (∀ mb, wPR.MergedBy = some mb →
       (Users.lookup wRes.users mb.ID).isSome = true ∧
       (Users.lookup wRes.contributors mb.ID).isSome = true) ∧
     wRes.contributions = sumContrib wPeriod ([wPR] ++ [wIssue])) :=
  ⟨by decide, ⟨by decide, by decide, by decide, by decide⟩,
   repoReport_merged_pr_routing wPeriod [wPR] [wIssue] wRes wPR (by decide)
     (by decide) (by decide) (by decide) (by decide)⟩

/-- Claim C4: an item whose `closedAt` is not in-period is routed to the
updated bucket exactly when it was touched in the period (in-period creation
or some in-period comment); with no in-period activity it appears in no
bucket at all, while its creator and its comment authors are still recorded
in the global user set. -/
theorem repoReport_updated_bucket_iff_touched (p : Period)
    (allPRs allIssues : List Item) (res : RepoState) (i : Item)
    (h : repoReport p allPRs allIssues = some res)
    (hi : i ∈ allPRs ++ allIssues) (hnc : Period.Match p i.ClosedAt = false) :
    (i ∈ res.updatedItems ↔ touched p i = true) ∧
    i ∉ res.mergedPRs ∧ i ∉ res.closedIssues ∧
    (∀ cb, i.CreatedBy = some cb →
      (Users.lookup res.users cb.ID).isSome = true) ∧
    (∀ c ∈ i.Comments, ∀ u, c.User = some u →
      (Users.lookup res.users u.ID).isSome = true) := by
  have hup : updCond p i = touched p i := by
    simp [updCond, hnc]
  refine ⟨?_, ?_, ?_, ?_, ?_⟩
  · rw [repoLoop_mem_updated p (allPRs ++ allIssues) RepoState.init res h i]
    constructor
    · rintro (hmem | ⟨_, hc⟩)
      · exact absurd hmem (by simp [RepoState.init])
      · rw [← hup]; exact hc
    · intro ht
      exact Or.inr ⟨hi, by rw [hup]; exact ht⟩
  · rw [repoLoop_mem_merged p (allPRs ++ allIssues) RepoState.init res h i]
    rintro (hmem | ⟨_, hc⟩)
    · exact absurd hmem (by simp [RepoState.init])
    · rw [mergedCond, hnc] at hc
      simp at hc
  · rw [repoLoop_mem_closed p (allPRs ++ allIssues) RepoState.init res h i]
    rintro (hmem | ⟨_, hc⟩)
    · exact absurd hmem (by simp [RepoState.init])
    · rw [closedCond, hnc] at hc
      simp at hc
  · intro cb hcb
    exact repoLoop_establishes p
      (fun r => (Users.lookup r.users cb.ID).isSome = true) i
      (fun s j s' hpi hk =>
        (processItem_spec p s j s' hpi).2.2.2.2.1 cb.ID hk)
      (fun s s' hpi =>
        (processItem_spec p s i s' hpi).2.2.2.2.2.2.1 cb hcb)
      (allPRs ++ allIssues) RepoState.init res hi h
  · intro c hc u hu
    exact repoLoop_establishes p
      (fun r => (Users.lookup r.users u.ID).isSome = true) i
      (fun s j s' hpi hk =>
        (processItem_spec p s j s' hpi).2.2.2.2.1 u.ID hk)
      (fun s s' hpi =>
        ((processItem_spec p s i s' hpi).2.2.2.2.2.2.2.1 c hc u hu).1)
      (allPRs ++ allIssues) RepoState.init res hi h

theorem repoReport_updated_bucket_iff_touched_witness :
    repoReport wPeriod [wPR] [wIssue] = some wRes ∧
    (wIssue ∈ [wPR] ++ [wIssue] ∧ Period.Match wPeriod wIssue.ClosedAt = false) ∧
    ((wIssue ∈ wRes.updatedItems ↔ touched wPeriod wIssue = true) ∧
     wIssue ∉ wRes.mergedPRs ∧ wIssue ∉ wRes.closedIssues ∧
     (∀ cb, wIssue.CreatedBy = some cb →
       (Users.lookup wRes.users cb.ID).isSome = true) ∧
     (∀ c ∈ wIssue.Comments, ∀ u, c.User = some u →
       (Users.lookup wRes.users u.ID).isSome = true)) :=
  ⟨by decide, ⟨by decide, by decide⟩,
   repoReport_updated_bucket_iff_touched wPeriod [wPR] [wIssue] wRes wIssue
     (by decide) (by decide) (by decide)⟩

/-- Claim C10: after repository-mode classification the contributor map is a
subset of the global user map (every contributor login is also a registered
user login), so the distinct-contributor count never exceeds the number of
users in the link appendix. -/
theorem repoReport_contributors_subset_users (p : Period)
    (allPRs allIssues : List Item) (res : RepoState)
    (h : repoReport p allPRs allIssues = some res) :
    (∀ k, (Users.lookup res.contributors k).isSome = true →
      (Users.lookup res.users k).isSome = true) ∧
    Users.size res.contributors ≤ Users.size res.users := by
  have hinv := repoLoop_inv p (allPRs ++ allIssues) RepoState.init res h
    mapsInv_init
  obtain ⟨hsub, hnu, hnc⟩ := hinv
  refine ⟨hsub, ?_⟩
  have hkeysub : ∀ x ∈ Users.keys res.contributors, x ∈ Users.keys res.users := by
    intro x hx
    rw [Users.mem_keys_iff] at hx ⊢
    exact hsub x hx
  have hlen := nodup_subset_length_le _ _ hnc hkeysub
  rw [Users.keys_length, Users.keys_length] at hlen
  exact hlen

theorem repoReport_contributors_subset_users_witness :
    repoReport wPeriod [wPR] [wIssue] = some wRes ∧
    ((∀ k, (Users.lookup wRes.contributors k).isSome = true →
       (Users.lookup wRes.users k).isSome = true) ∧
     Users.size wRes.contributors ≤ Users.size wRes.users) :=
  ⟨by decide,
   repoReport_contributors_subset_users wPeriod [wPR] [wIssue] wRes (by decide)⟩

/-- Claim C5: counting occurrences, no item is placed in more than one of the
repository-mode buckets (merged PRs, closed issues, updated), no PR is placed
in both or twice in the user-mode PR buckets (user's PRs, reviewed PRs), and
no issue is placed in both or twice in the user-mode issue buckets (user's
issues, issues commented on): for duplicate-free inputs each item therefore
appears in at most one bucket, exactly once. -/
theorem report_buckets_mutually_exclusive (p : Period) (user : String)
    (allPRs allIssues : List Item) (res : RepoState)
    (ur : (List Item × List Item) × (List Item × List Item))
    (h : repoReport p allPRs allIssues = some res)
    (hu : userReport p user allPRs allIssues = some ur) :
    (∀ x, List.count x res.mergedPRs + List.count x res.closedIssues
        + List.count x res.updatedItems ≤ List.count x (allPRs ++ allIssues)) ∧
    (∀ x, List.count x ur.1.1 + List.count x ur.1.2 ≤ List.count x allPRs) ∧
    (∀ x, List.count x ur.2.1 + List.count x ur.2.2 ≤ List.count x allIssues) := by
  rw [userReport] at hu
  cases hpl : pairLoop (processUserPR p user) allPRs ([], []) with
  | none => rw [hpl] at hu; exact absurd hu (by simp)
  | some prs =>
      rw [hpl] at hu
      cases hil : pairLoop (processUserIssue p user) allIssues ([], []) with
      | none => rw [hil] at hu; exact absurd hu (by simp)
      | some iss =>
          rw [hil] at hu
          have hu' : (prs, iss) = ur := Option.some.inj hu
          refine ⟨?_, ?_, ?_⟩
          · intro x
            have hc := repoLoop_count p (allPRs ++ allIssues) RepoState.init res h x
            simpa [RepoState.init] using hc
          · intro x
            have hc := pairLoop_count (processUserPR p user)
              (processUserPR_cases p user) allPRs ([], []) prs hpl x
            rw [← hu']
            simpa using hc
          · intro x
            have hc := pairLoop_count (processUserIssue p user)
              (processUserIssue_cases p user) allIssues ([], []) iss hil x
            rw [← hu']
            simpa using hc

/-- The concrete user-mode result of the witness scenario. -/
def wURes : (List Item × List Item) × (List Item × List Item) :=
  (userReport wPeriod "alice" [wPR] [wIssue]).getD (([], []), ([], []))

theorem report_buckets_mutually_exclusive_witness :
    repoReport wPeriod [wPR] [wIssue] = some wRes ∧
    userReport wPeriod "alice" [wPR] [wIssue] = some wURes ∧
    ((∀ x, List.count x wRes.mergedPRs + List.count x wRes.closedIssues
        + List.count x wRes.updatedItems ≤ List.count x ([wPR] ++ [wIssue])) ∧
     (∀ x, List.count x wURes.1.1 + List.count x wURes.1.2
        ≤ List.count x [wPR]) ∧
     (∀ x, List.count x wURes.2.1 + List.count x wURes.2.2
        ≤ List.count x [wIssue])) :=
  ⟨by decide, by decide,
   report_buckets_mutually_exclusive wPeriod "alice" [wPR] [wIssue] wRes wURes
     (by decide) (by decide)⟩

/-- Registry well-formedness: every stored `User` carries the login it is
keyed under (true of every registry built through `Users.Add`, which keys
each new user by its own `ID`). -/
def RegistryWF (m : Users) : Prop :=
  ∀ k u, Users.lookup m k = some u → u.ID = k

theorem registryWF_empty : RegistryWF [] := by
  intro k u h
  simp [Users.lookup] at h

theorem Users.Add_of_found (m : Users) (w : GithubUser) (usr : User)
    (h : Users.lookup m w.Login = some usr) : Users.Add m w = (usr, m) := by
  simp [Users.Add, h]

/-- Claim C6: identity-registry resolution is idempotent.  Resolving a login
already present returns the stored `User` and leaves the registry unchanged;
resolving the same login twice returns the identical `User` value with no
registry change on the second call (the embedding's rendering of
reference-identity, so one run never holds two `User` instances for one
login); the returned user's `id` is always the resolved login, hence
resolving two different logins yields users with different `id` fields. -/
theorem users_add_idempotent_registry (m : Users) (u u2 : GithubUser)
    (hwf : RegistryWF m) :
    (∀ usr, Users.lookup m u.Login = some usr →
        (Users.Add m u).1 = usr ∧ (Users.Add m u).2 = m) ∧
    (u2.Login = u.Login →
        (Users.Add ((Users.Add m u).2) u2).1 = (Users.Add m u).1 ∧
        (Users.Add ((Users.Add m u).2) u2).2 = (Users.Add m u).2) ∧
    (Users.Add m u).1.ID = u.Login ∧
    RegistryWF ((Users.Add m u).2) ∧
    (u.Login ≠ u2.Login →
        (Users.Add m u).1.ID ≠ (Users.Add ((Users.Add m u).2) u2).1.ID) := by
  have hid : ∀ (m' : Users), RegistryWF m' →
      ∀ (w : GithubUser), (Users.Add m' w).1.ID = w.Login := by
    intro m' hwf' w
    cases hl : Users.lookup m' w.Login with
    | some usr =>
        simp only [Users.Add, hl]
        exact hwf' w.Login usr hl
    | none => simp [Users.Add, hl, NewUser]
  have hwf' : RegistryWF ((Users.Add m u).2) := by
    cases hl : Users.lookup m u.Login with
    | some usr => simpa [Users.Add, hl] using hwf
    | none =>
        simp only [Users.Add, hl]
        intro k usr hk
        rw [Users.lookup_store] at hk
        by_cases hkk : (NewUser u).ID = k
        · rw [if_pos hkk] at hk
          rw [← Option.some.inj hk]
          exact hkk
        · rw [if_neg hkk] at hk
          exact hwf k usr hk
  refine ⟨?_, ?_, hid m hwf u, hwf', ?_⟩
  · intro usr hl
    constructor <;> simp [Users.Add, hl]
  · intro heq
    have hl2 : Users.lookup ((Users.Add m u).2) u2.Login
        = some (Users.Add m u).1 := by
      rw [heq]
      cases hl : Users.lookup m u.Login with
      | some usr => simp [Users.Add, hl]
      | none =>
          simp only [Users.Add, hl]
          exact Users.lookup_store_self m (NewUser u).ID (NewUser u)
    have hAdd2 := Users.Add_of_found ((Users.Add m u).2) u2 ((Users.Add m u).1) hl2
    rw [hAdd2]
    exact ⟨rfl, rfl⟩
  · intro hne
    rw [hid m hwf u, hid ((Users.Add m u).2) hwf' u2]
    exact hne

/-- Concrete raw user records for the registry witness. -/
def wRawAlice : GithubUser := { Login := "alice", HTMLURL := "https://example.com/alice" }

def wRawBob : GithubUser := { Login := "bob", HTMLURL := "https://example.com/bob" }

theorem users_add_idempotent_registry_witness :
    RegistryWF [] ∧
    ((∀ usr, Users.lookup [] wRawAlice.Login = some usr →
        (Users.Add [] wRawAlice).1 = usr ∧ (Users.Add [] wRawAlice).2 = []) ∧
     (wRawBob.Login = wRawAlice.Login →
        (Users.Add ((Users.Add [] wRawAlice).2) wRawBob).1
          = (Users.Add [] wRawAlice).1 ∧
        (Users.Add ((Users.Add [] wRawAlice).2) wRawBob).2
          = (Users.Add [] wRawAlice).2) ∧
     (Users.Add [] wRawAlice).1.ID = wRawAlice.Login ∧
     RegistryWF ((Users.Add [] wRawAlice).2) ∧
     (wRawAlice.Login ≠ wRawBob.Login →
        (Users.Add [] wRawAlice).1.ID
          ≠ (Users.Add ((Users.Add [] wRawAlice).2) wRawBob).1.ID)) :=
  ⟨registryWF_empty,
   users_add_idempotent_registry [] wRawAlice wRawBob registryWF_empty⟩

/-- Decimal digit test used by the `strconv.Atoi` model. -/
def isDigitChar (c : Char) : Bool := decide ('0' ≤ c) && decide (c ≤ '9')

/-- Value of a digit string. -/
def digitsVal (cs : List Char) : Nat :=
  cs.foldl (fun acc c => acc * 10 + (c.toNat - '0'.toNat)) 0

/-- Model of Go `strconv.Atoi` (`ParseInt(s, 10, 0)` on a 64-bit platform):
an optional sign followed by at least one decimal digit; anything else is a
syntax error, and a value outside the int64 range is a range error.  Both
failures return a non-nil `error` in Go, modelled as `Except.error`. -/
def atoi (s : String) : Except String Int :=
  match s.data with
  | [] => Except.error "invalid syntax"
  | c :: cs =>
      let sd : Bool × List Char :=
        if c = '+' then (false, cs)
        else if c = '-' then (true, cs)
        else (false, c :: cs)
      if sd.2.isEmpty then Except.error "invalid syntax"
      else if sd.2.all isDigitChar then
        let n : Int :=
          if sd.1 then -(digitsVal sd.2 : Int) else (digitsVal sd.2 : Int)
        if n < -9223372036854775808 ∨ 9223372036854775807 < n then
          Except.error "value out of range"
        else Except.ok n
      else Except.error "invalid syntax"

/-- Split a character list at the first dash, as `strings.SplitN(s, "-", 2)`
does. -/
def splitOnceDash : List Char → Option (List Char × List Char)
  | [] => none
  | c :: rest =>
      if c = '-' then some ([], rest)
      else
        match splitOnceDash rest with
        | none => none
        | some (a, b) => some (c :: a, b)

/-- Model of `strings.SplitN(s, "-", 2)`: one element when the separator is
absent, two otherwise (the second keeping any further separators). -/
def splitN2 (s : String) : List String :=
  match splitOnceDash s.data with
  | none => [s]
  | some (a, b) => [String.mk a, String.mk b]

/-- Result of a Go function returning `(*Period, error)` where the body may
also panic: `ok` a period, `err` a returned error, `crash` a run-time panic
(index out of range). -/
inductive ParseResult (α : Type) where
  | ok : α → ParseResult α
  | err : String → ParseResult α
  | crash : ParseResult α
deriving DecidableEq, Repr

/-- Go `isLeap`. -/
def isLeap (y : Int) : Bool := y % 4 == 0 && (y % 100 != 0 || y % 400 == 0)

/-- Go's `daysBefore` table: cumulative day counts before each month in a
non-leap year. -/
def daysBeforeL : List Int :=
  [0, 31, 59, 90, 120, 151, 181, 212, 243, 273, 304, 334, 365]

def dbGet (n : Int) : Int := daysBeforeL.getD n.toNat 0

/-- Days since January 1 of year 1 for a `time.Date(year, month, day, ...)`
call: the month is normalized into the year exactly as Go's `norm` does
(floor division), and the day is added without clamping, so day 0 is the last
day of the previous month.  Leap days are counted with the proleptic
Gregorian rule, matching Go's absolute-date computation. -/
def dateDays (year month day : Int) : Int :=
  let m0 := month - 1
  let y := year + m0 / 12
  let m := m0 % 12
  let yy := y - 1
  let d := 365 * yy + yy / 4 - yy / 100 + yy / 400
  let d := d + dbGet m
  let d := if isLeap y && decide (m ≥ 2) then d + 1 else d
  d + (day - 1)

/-- Seconds since the absolute epoch for a `time.Date(...)` call in UTC. -/
def goDateSec (year month day hour minute sec : Int) : Int :=
  dateDays year month day * 86400 + hour * 3600 + minute * 60 + sec

/-- The year/yday part of Go's `absDate`: reduce days since January 1 of
year 1 by 400-year, capped 100-year, 4-year and capped 1-year chunks;
returns (year, 0-based day of year). -/
def absDateDays (d0 : Int) : Int × Int :=
  let n1 := d0 / 146097
  let y1 := 400 * n1
  let d1 := d0 - 146097 * n1
  let q2 := d1 / 36524
  let n2 := q2 - q2 / 4
  let y2 := y1 + 100 * n2
  let d2 := d1 - 36524 * n2
  let n3 := d2 / 1461
  let y3 := y2 + 4 * n3
  let d3 := d2 - 1461 * n3
  let q4 := d3 / 365
  let n4 := q4 - q4 / 4
  let y4 := y3 + n4
  let d4 := d3 - 365 * n4
  (y4 + 1, d4)

/-- The month/day part of Go's `absDate` for a non-leap-year day offset. -/
def civilMonthDay (yday : Int) : Int × Int :=
  let month := yday / 31
  let monthEnd := dbGet (month + 1)
  let md :=
    if yday ≥ monthEnd then (month + 1, monthEnd) else (month, dbGet month)
  (md.1 + 1, yday - md.2 + 1)

/-- Go's full `absDate`: (year, month, day) of an absolute day count, with
the February 29 special case. -/
def civilFromDays (d : Int) : Int × Int × Int :=
  let yd := absDateDays d
  if isLeap yd.1 then
    if yd.2 = 59 then (yd.1, 2, 29)
    else if yd.2 > 59 then
      let md := civilMonthDay (yd.2 - 1)
      (yd.1, md.1, md.2)
    else
      let md := civilMonthDay yd.2
      (yd.1, md.1, md.2)
  else
    let md := civilMonthDay yd.2
    (yd.1, md.1, md.2)

/-- `daysIn` from period.go: `time.Date(year, m+1, 0, ...).Day()`, the number
of days in month `m` of `year`. -/
def daysIn (year m : Int) : Int :=
  (civilFromDays (dateDays year (m + 1) 0)).2.2

/-- `NewPeriodFromMonth` from period.go: split on the first dash, parse the
year from field 0 and the month from field 1, and build the period from the
first of the month to the last second of its last day.  When the input has no
separator, field 0 parses and the `o[1]` access panics (`crash`); a failed
`Atoi` is returned as an error first. -/
def NewPeriodFromMonth (s : String) : ParseResult Period :=
  match splitN2 s with
  | [] => ParseResult.crash
  | [s0] =>
      match atoi s0 with
      | Except.error e => ParseResult.err e
      | Except.ok _ => ParseResult.crash
  | s0 :: s1 :: _ =>
      match atoi s0 with
      | Except.error e => ParseResult.err e
      | Except.ok year =>
          match atoi s1 with
          | Except.error e => ParseResult.err e
          | Except.ok m =>
              ParseResult.ok
                { Start := goDateSec year m 1 0 0 0,
                  End := goDateSec year m (daysIn year m) 23 59 59 }

/-- Claim C8 is false as stated: the input `"2018"` is not two integer fields
separated by a separator, yet `NewPeriodFromMonth` does not return a
`ParseError` — `strings.SplitN` yields a single field, `Atoi` succeeds on it,
and the subsequent unchecked `o[1]` access panics with an index out of
range. -/
theorem newPeriodFromMonth_crashes_on_missing_separator :
    NewPeriodFromMonth "2018" = ParseResult.crash := by
  rfl

/-- Claim C8 (amended): whenever the split produces two fields and either
field is not a well-formed integer, and whenever it produces a single
malformed field, `NewPeriodFromMonth` returns an error and no Period is
produced; only a separator-free input whose single field parses as an
integer escapes into the index-out-of-range panic. -/
theorem newPeriodFromMonth_error_on_malformed_fields (s : String) :
    (∀ a b, splitN2 s = [a, b] →
      ((∃ e, atoi a = Except.error e) ∨ (∃ e, atoi b = Except.error e)) →
      ∃ e, NewPeriodFromMonth s = ParseResult.err e) ∧
    (∀ a e, splitN2 s = [a] → atoi a = Except.error e →
      NewPeriodFromMonth s = ParseResult.err e) := by
  constructor
  · intro a b hsplit hbad
    rcases hbad with ⟨e, he⟩ | ⟨e, he⟩
    · refine ⟨e, ?_⟩
      simp [NewPeriodFromMonth, hsplit, he]
    · cases ha : atoi a with
      | error e1 =>
          refine ⟨e1, ?_⟩
          simp [NewPeriodFromMonth, hsplit, ha]
      | ok y =>
          refine ⟨e, ?_⟩
          simp [NewPeriodFromMonth, hsplit, ha, he]
  · intro a e hsplit he
    simp [NewPeriodFromMonth, hsplit, he]

theorem newPeriodFromMonth_error_witness :
    splitN2 "2018-xx" = ["2018", "xx"] ∧
    atoi "xx" = Except.error "invalid syntax" ∧
    (∃ e, NewPeriodFromMonth "2018-xx" = ParseResult.err e) ∧
    atoi "abc" = Except.error "invalid syntax" ∧
    splitN2 "abc" = ["abc"] ∧
    NewPeriodFromMonth "abc" = ParseResult.err "invalid syntax" :=
  ⟨by rfl, by rfl,
   (newPeriodFromMonth_error_on_malformed_fields "2018-xx").1 "2018" "xx"
     (by rfl) (Or.inr ⟨"invalid syntax", by rfl⟩),
   by rfl, by rfl,
   (newPeriodFromMonth_error_on_malformed_fields "abc").2 "abc"
     "invalid syntax" (by rfl) (by rfl)⟩

/-- The Thursday of the ISO week containing absolute day `d` (Go `ISOWeek`
moves to the Thursday of the current Monday-to-Sunday week; weekday 0 is
Sunday, and day 0 — January 1 of year 1 — is a Monday). -/
def isoThursday (d : Int) : Int :=
  let wd := (d + 1) % 7
  d + (if wd = 0 then -3 else 4 - wd)

/-- Go `time.ISOWeek` on an absolute day count: the ISO year is the calendar
year of that Thursday and the ISO week is its 0-based day of year divided by
7, plus one. -/
def isoWeekDays (d : Int) : Int × Int :=
  let yd := absDateDays (isoThursday d)
  (yd.1, yd.2 / 7 + 1)

theorem absDateDays_yday_bounds (d0 : Int) :
    0 ≤ (absDateDays d0).2 ∧ (absDateDays d0).2 ≤ 365 := by
  simp only [absDateDays]
  omega

/-- The ISO week number computed by the model never exceeds 53. -/
theorem isoWeekDays_week_le (d : Int) : (isoWeekDays d).2 ≤ 53 := by
  have hb := absDateDays_yday_bounds (isoThursday d)
  simp only [isoWeekDays]
  omega

/-- First loop of `firstDayOfISOWeek`: walk backward day by day to a Monday.
The fuel argument bounds the number of iterations; `none` models a loop that
is still running when the fuel runs out. -/
def backToMonday : Nat → Int → Option Int
  | fuel, d =>
      if (d + 1) % 7 = 1 then some d
      else
        match fuel with
        | 0 => none
        | fuel' + 1 => backToMonday fuel' (d - 1)

/-- Second loop of `firstDayOfISOWeek`: walk forward while the ISO year is
below the target year. -/
def forwardToYear : Nat → Int → Int → Option Int
  | fuel, year, d =>
      if (isoWeekDays d).1 < year then
        match fuel with
        | 0 => none
        | fuel' + 1 => forwardToYear fuel' year (d + 1)
      else some d

/-- Third loop of `firstDayOfISOWeek`: walk forward while the ISO week is
below the target week. -/
def forwardToWeek : Nat → Int → Int → Option Int
  | fuel, week, d =>
      if (isoWeekDays d).2 < week then
        match fuel with
        | 0 => none
        | fuel' + 1 => forwardToWeek fuel' week (d + 1)
      else some d

/-- `firstDayOfISOWeek` from period.go: start from `time.Date(year, 0, 0)`
(November 30 of the previous year), iterate back to a Monday, forward to the
first day of the target ISO year, then forward to the requested week.  A
`none` result means some loop was still running after `fuel` iterations. -/
def firstDayOfISOWeek (year week : Int) (fuel : Nat) : Option Int :=
  match backToMonday fuel (dateDays year 0 0) with
  | none => none
  | some d1 =>
      match forwardToYear fuel year d1 with
      | none => none
      | some d2 => forwardToWeek fuel week d2

/-- For any target week above 53 the third loop never exits, whatever the
fuel: its guard `isoWeek < week` stays true because ISO week numbers are at
most 53. -/
theorem forwardToWeek_none_of_week_gt (week : Int) (hw : 53 < week) :
    ∀ (fuel : Nat) (d : Int), forwardToWeek fuel week d = none := by
  intro fuel
  induction fuel with
  | zero =>
      intro d
      rw [forwardToWeek]
      have hle := isoWeekDays_week_le d
      rw [if_pos (by omega)]
  | succ n ih =>
      intro d
      rw [forwardToWeek]
      have hle := isoWeekDays_week_le d
      rw [if_pos (by omega)]
      exact ih (d + 1)

/-- Claim C9: the input `"2018-54"` is accepted by the week parser (two
well-formed integers), yet the day-by-day scan of `firstDayOfISOWeek` never
terminates — after any number of iterations the week loop is still running,
contradicting the claimed ~370-iteration bound. -/
theorem firstDayOfISOWeek_diverges_on_week_54 :
    splitN2 "2018-54" = ["2018", "54"] ∧
    atoi "2018" = Except.ok 2018 ∧ atoi "54" = Except.ok 54 ∧
    ∀ fuel : Nat, firstDayOfISOWeek 2018 54 fuel = none := by
  refine ⟨by rfl, by rfl, by rfl, ?_⟩
  intro fuel
  rw [firstDayOfISOWeek]
  cases h1 : backToMonday fuel (dateDays 2018 0 0) with
  | none => rfl
  | some d1 =>
      cases h2 : forwardToYear fuel 2018 d1 with
      | none => simp [h2]
      | some d2 =>
          simp only [h2]
          exact forwardToWeek_none_of_week_gt 54 (by omega) fuel d2

/-- Sanity check of the scan model on a well-formed input: for 2018 week 8 it
finds Monday, February 19, 2018 within 400 iterations per loop. -/
theorem firstDayOfISOWeek_2018_week8 :
    firstDayOfISOWeek 2018 8 400 = some (dateDays 2018 2 19) := by
  decide
